import Mathlib

/-!
# Verification of dumi `preset-dumi` core plugin (src/packages/preset-dumi/src/plugins/core.ts)

This file shallowly embeds the route/metadata derivation core of the plugin:

* a JSON value model with the exact serialization the plugin performs
  (`JSON.stringify` followed by replacing every `"` with `^`, core.ts line 118),
  and the consuming side (the framework decodes `^` back to `"` and runs
  `JSON.parse`);
* the configuration merge `mergeUserConfig` (core.ts lines 15-43), including the
  aliasing introduced by the shallow `Object.assign` copy: the nested `resolve`
  object of the default options is shared with the merged result, so writes to
  `result.resolve` are visible through the defaults.  The single shared
  `resolve` object is modelled as an explicit cell threaded through the
  functions;
* the default options (core.ts lines 45-71);
* the two route passes `api.onPatchRoutesBefore` (lines 74-93) and
  `api.modifyRoutes` (lines 96-124).

External modules (`getRouteConfig`, `getMenuFromRoutes`, `getNavFromRoutes`,
`getLocaleFromRoutes`, `getDemoRoutes`, `getRepoUrl`, host package alias
resolution and Node path functions) are not part of the excerpt; they enter the
theorems as universally quantified pure functions.
-/

set_option maxRecDepth 8000

namespace DumiCore

/-! ## JSON values

The model uses a mutual inductive (instead of nesting `List`) so that every
function over it is compiled by structural recursion and reduces in the kernel.
Numbers are restricted to integers: the floating point formatting of
`JSON.stringify` is outside the model.  JavaScript objects have no duplicate
keys; `JsonObj` is an ordered association list, the order being the insertion
order `JSON.stringify` serializes in. -/

mutual
inductive Json where
  | null : Json
  | bool (b : Bool) : Json
  | num (n : Int) : Json
  | str (s : String) : Json
  | arr (xs : JsonArr) : Json
  | obj (kvs : JsonObj) : Json
inductive JsonArr where
  | nil : JsonArr
  | cons (hd : Json) (tl : JsonArr) : JsonArr
inductive JsonObj where
  | nil : JsonObj
  | cons (k : String) (v : Json) (tl : JsonObj) : JsonObj
end

/-- The double quote character, kept as a named constant. -/
def quoteCh : Char := Char.ofNat 34

/-- The backslash character. -/
def backslashCh : Char := Char.ofNat 92

/-- The caret character the plugin escapes quotes to. -/
def caretCh : Char := Char.ofNat 94

/-- The opening curly brace. -/
def lbraceCh : Char := Char.ofNat 123

/-- The closing curly brace. -/
def rbraceCh : Char := Char.ofNat 125

/-- The decimal digit character of `d < 10`. -/
def digitCh (d : Nat) : Char := Char.ofNat (48 + d)

/-- The lowercase hexadecimal digit character of `d < 16` (as
`Number.prototype.toString(16)` produces for `JSON.stringify` escapes). -/
def hexDigitCh (d : Nat) : Char := if d < 10 then Char.ofNat (48 + d) else Char.ofNat (87 + d)

/-- Decimal digits of `n`, most significant first, prepended to `acc`;
fuel-based so that it is structural (the kernel can evaluate it).  Mirrors the
digit loop of JavaScript number-to-string conversion for integers. -/
def natCharsAux : Nat → Nat → List Char → List Char
  | 0, _, acc => acc
  | f + 1, n, acc =>
    let acc' := digitCh (n % 10) :: acc
    if n / 10 = 0 then acc' else natCharsAux f (n / 10) acc'

/-- Decimal rendering of a natural number. -/
def natChars (n : Nat) : List Char := natCharsAux (n + 1) n []

/-- Decimal rendering of an integer (what `JSON.stringify` prints for an
integral number). -/
def intChars (n : Int) : List Char :=
  if n < 0 then '-' :: natChars n.natAbs else natChars n.toNat

/-- `JSON.stringify` escaping of one character inside a string literal:
`"` and `\` get a backslash, the five short escapes are used where they exist,
all other control characters become `\u00xx`, everything else is literal. -/
def escChar (c : Char) : List Char :=
  if c = quoteCh then [backslashCh, quoteCh]
  else if c = backslashCh then [backslashCh, backslashCh]
  else if c = Char.ofNat 10 then [backslashCh, 'n']
  else if c = Char.ofNat 13 then [backslashCh, 'r']
  else if c = Char.ofNat 9 then [backslashCh, 't']
  else if c = Char.ofNat 8 then [backslashCh, 'b']
  else if c = Char.ofNat 12 then [backslashCh, 'f']
  else if c.toNat < 32 then
    [backslashCh, 'u', '0', '0', hexDigitCh (c.toNat / 16), hexDigitCh (c.toNat % 16)]
  else [c]

/-- `JSON.stringify` escaping of a whole string body. -/
def escList : List Char → List Char
  | [] => []
  | c :: cs => escChar c ++ escList cs

mutual
/-- `JSON.stringify` (no indentation), as the character list it prints. -/
def Json.strChars : Json → List Char
  | .null => 'n' :: 'u' :: 'l' :: 'l' :: []
  | .bool true => 't' :: 'r' :: 'u' :: 'e' :: []
  | .bool false => 'f' :: 'a' :: 'l' :: 's' :: 'e' :: []
  | .num n => intChars n
  | .str s => quoteCh :: (escList s.data ++ [quoteCh])
  | .arr xs => '[' :: (JsonArr.itemsChars xs ++ [']'])
  | .obj kvs => lbraceCh :: (JsonObj.membersChars kvs ++ [rbraceCh])
/-- The comma-separated items of an array. -/
def JsonArr.itemsChars : JsonArr → List Char
  | .nil => []
  | .cons x .nil => Json.strChars x
  | .cons x (.cons y tl) => Json.strChars x ++ ',' :: JsonArr.itemsChars (JsonArr.cons y tl)
/-- The comma-separated `"key":value` members of an object. -/
def JsonObj.membersChars : JsonObj → List Char
  | .nil => []
  | .cons k v .nil => quoteCh :: (escList k.data ++ quoteCh :: ':' :: Json.strChars v)
  | .cons k v (.cons k2 v2 tl) =>
    (quoteCh :: (escList k.data ++ quoteCh :: ':' :: Json.strChars v))
      ++ ',' :: JsonObj.membersChars (JsonObj.cons k2 v2 tl)
end

/-- The escaping step of core.ts line 118: `JSON.stringify(meta).replace(/"/g, '^')`
replaces every double quote character with a caret. -/
def encodeQuotes (cs : List Char) : List Char :=
  cs.map fun c => if c = quoteCh then caretCh else c

/-- Modelled from the spec: the consuming framework's inverse decoding
(umi's `stripJSONQuote`, referenced at core.ts line 117, is outside this
repository) — every caret is turned back into a double quote. -/
def decodeCarets (cs : List Char) : List Char :=
  cs.map fun c => if c = caretCh then quoteCh else c

/-- The serialized metadata embedded into the rewritten root-route component:
`JSON.stringify` followed by the quote-to-caret replacement. -/
def serializeChars (v : Json) : List Char := encodeQuotes (Json.strChars v)

/-! ## JSON.parse

A strict executable JSON parser, modelled from the spec: the consuming
framework finishes deserialization with the platform's `JSON.parse`, which is
not code of this repository.  The parser follows the RFC 8259 grammar —
whitespace tolerated around tokens, full escape handling in strings, raw
control characters in strings rejected — except that number syntax is
restricted to integers (a fraction or exponent part is rejected), matching the
model's integral `Json.num`.  The value-parsing functions take fuel (an upper
bound on nesting depth) so that every recursion is structural and the kernel
can evaluate the parser on concrete inputs. -/

/-- JSON insignificant whitespace: space, tab, line feed, carriage return. -/
def isWsCh (c : Char) : Bool :=
  c = ' ' || c = Char.ofNat 9 || c = Char.ofNat 10 || c = Char.ofNat 13

/-- Drop leading JSON whitespace. -/
def skipWs : List Char → List Char
  | [] => []
  | c :: cs => if isWsCh c then skipWs cs else c :: cs

/-- The value of a hexadecimal digit character (either case), if it is one. -/
def hexVal (c : Char) : Option Nat :=
  if 48 ≤ c.toNat ∧ c.toNat ≤ 57 then some (c.toNat - 48)
  else if 97 ≤ c.toNat ∧ c.toNat ≤ 102 then some (c.toNat - 87)
  else if 65 ≤ c.toNat ∧ c.toNat ≤ 70 then some (c.toNat - 55)
  else none

/-- The character a short escape `\c` stands for, if `c` is a legal one. -/
def unescCh (c : Char) : Option Char :=
  if c = quoteCh then some quoteCh
  else if c = backslashCh then some backslashCh
  else if c = '/' then some '/'
  else if c = 'n' then some (Char.ofNat 10)
  else if c = 'r' then some (Char.ofNat 13)
  else if c = 't' then some (Char.ofNat 9)
  else if c = 'b' then some (Char.ofNat 8)
  else if c = 'f' then some (Char.ofNat 12)
  else none

/-- Parse a string body after the opening quote, returning the characters and
the input after the closing quote. -/
def parseStrBody : List Char → Option (List Char × List Char)
  | [] => none
  | c :: cs =>
    if c = quoteCh then some ([], cs)
    else if c = backslashCh then
      match cs with
      | [] => none
      | e :: cs1 =>
        if e = 'u' then
          match cs1 with
          | h1 :: h2 :: h3 :: h4 :: cs2 =>
            match hexVal h1, hexVal h2, hexVal h3, hexVal h4 with
            | some a, some b, some c3, some d =>
              let n := ((a * 16 + b) * 16 + c3) * 16 + d
              if _h : n.isValidChar then
                (parseStrBody cs2).map fun p => (Char.ofNat n :: p.1, p.2)
              else none
            | _, _, _, _ => none
          | _ => none
        else
          match unescCh e with
          | some d => (parseStrBody cs1).map fun p => (d :: p.1, p.2)
          | none => none
    else if c.toNat < 32 then none
    else (parseStrBody cs).map fun p => (c :: p.1, p.2)

/-- Greedily consume decimal digits, accumulating their value. -/
def parseDigits : List Char → Nat → Nat × List Char
  | [], acc => (acc, [])
  | c :: cs, acc =>
    if c.isDigit then parseDigits cs (acc * 10 + (c.toNat - 48)) else (acc, c :: cs)

/-- After an integer literal, a fraction or exponent part means the number is
outside the integral model, so the parser rejects rather than misparses. -/
def numStop (cs : List Char) : Bool :=
  match cs with
  | [] => true
  | c :: _ => !(c = '.' || c = 'e' || c = 'E')

/-- Parse an integer literal: optional minus sign, then at least one digit. -/
def parseNum : List Char → Option (Int × List Char)
  | [] => none
  | c :: cs =>
    if c = '-' then
      match cs with
      | [] => none
      | d :: _ =>
        if d.isDigit then
          let p := parseDigits cs 0
          if numStop p.2 then some (-(p.1 : Int), p.2) else none
        else none
    else if c.isDigit then
      let p := parseDigits (c :: cs) 0
      if numStop p.2 then some ((p.1 : Int), p.2) else none
    else none

/-- Parse the comma-separated items of a nonempty array, `pv` parsing one
value; consumes the closing bracket. -/
def itemsLoop (pv : List Char → Option (Json × List Char)) :
    Nat → List Char → Option (JsonArr × List Char)
  | 0, _ => none
  | g + 1, cs =>
    (pv cs).bind fun p =>
      match skipWs p.2 with
      | [] => none
      | c :: cs2 =>
        if c = ',' then
          (itemsLoop pv g cs2).map fun q => (JsonArr.cons p.1 q.1, q.2)
        else if c = ']' then some (JsonArr.cons p.1 JsonArr.nil, cs2)
        else none

/-- Parse the comma-separated members of a nonempty object, `pv` parsing one
value; consumes the closing brace. -/
def membersLoop (pv : List Char → Option (Json × List Char)) :
    Nat → List Char → Option (JsonObj × List Char)
  | 0, _ => none
  | g + 1, cs =>
    match skipWs cs with
    | [] => none
    | q :: cs0 =>
      if q = quoteCh then
        (parseStrBody cs0).bind fun kp =>
          match skipWs kp.2 with
          | [] => none
          | c :: cs2 =>
            if c = ':' then
              (pv cs2).bind fun p =>
                match skipWs p.2 with
                | [] => none
                | c2 :: cs4 =>
                  if c2 = ',' then
                    (membersLoop pv g cs4).map fun q2 =>
                      (JsonObj.cons (String.mk kp.1) p.1 q2.1, q2.2)
                  else if c2 = rbraceCh then
                    some (JsonObj.cons (String.mk kp.1) p.1 JsonObj.nil, cs4)
                  else none
            else none
      else none

/-- Parse one JSON value (fuel bounds the nesting depth). -/
def parseVal : Nat → List Char → Option (Json × List Char)
  | 0, _ => none
  | f + 1, cs =>
    match skipWs cs with
    | [] => none
    | c :: cs0 =>
      if c = lbraceCh then
        match skipWs cs0 with
        | [] => none
        | c2 :: cs1 =>
          if c2 = rbraceCh then some (Json.obj JsonObj.nil, cs1)
          else (membersLoop (parseVal f) f (c2 :: cs1)).map fun p => (Json.obj p.1, p.2)
      else if c = '[' then
        match skipWs cs0 with
        | [] => none
        | c2 :: cs1 =>
          if c2 = ']' then some (Json.arr JsonArr.nil, cs1)
          else (itemsLoop (parseVal f) f (c2 :: cs1)).map fun p => (Json.arr p.1, p.2)
      else if c = quoteCh then
        (parseStrBody cs0).map fun p => (Json.str (String.mk p.1), p.2)
      else if c = 'n' then
        match cs0 with
        | 'u' :: 'l' :: 'l' :: rest => some (Json.null, rest)
        | _ => none
      else if c = 't' then
        match cs0 with
        | 'r' :: 'u' :: 'e' :: rest => some (Json.bool true, rest)
        | _ => none
      else if c = 'f' then
        match cs0 with
        | 'a' :: 'l' :: 's' :: 'e' :: rest => some (Json.bool false, rest)
        | _ => none
      else (parseNum (c :: cs0)).map fun p => (Json.num p.1, p.2)

/-- `JSON.parse`: one value, with only whitespace allowed after it.  The fuel
`cs.length + 1` dominates any nesting depth the input can express. -/
def jsonParse (cs : List Char) : Option Json :=
  (parseVal (cs.length + 1) cs).bind fun p =>
    if (skipWs p.2).isEmpty then some p.1 else none

/-- Deserialization as the consuming side performs it (per the spec): the
framework's caret decoding, then `JSON.parse`. -/
def deserialize (cs : List Char) : Option Json := jsonParse (decodeCarets cs)

/-- The continuation after a serialized value never starts with a character
that could extend a number literal (a digit, `.`, `e`, `E`): inside a
serialization the next character is `,`, `]`, `}` or the end. -/
def numBoundaryB (cs : List Char) : Bool :=
  match cs with
  | [] => true
  | c :: _ => !(c.isDigit || c = '.' || c = 'e' || c = 'E')

mutual
/-- Fuel sufficient for `parseVal` to parse the serialization of a value:
one more than the nesting depth. -/
def Json.pfuel : Json → Nat
  | .arr xs => JsonArr.pfuelItems xs + 1
  | .obj kvs => JsonObj.pfuelMembers kvs + 1
  | _ => 1
/-- Fuel sufficient for `itemsLoop` over the serialized items. -/
def JsonArr.pfuelItems : JsonArr → Nat
  | .nil => 1
  | .cons x tl => Nat.max (Json.pfuel x) (JsonArr.pfuelItems tl) + 1
/-- Fuel sufficient for `membersLoop` over the serialized members. -/
def JsonObj.pfuelMembers : JsonObj → Nat
  | .nil => 1
  | .cons _ v tl => Nat.max (Json.pfuel v) (JsonObj.pfuelMembers tl) + 1
end

mutual
/-- No string value anywhere in the value contains a caret character. -/
def Json.noCaretB : Json → Bool
  | .str s => !(decide (caretCh ∈ s.data))
  | .arr xs => JsonArr.noCaretItems xs
  | .obj kvs => JsonObj.noCaretMembers kvs
  | _ => true
/-- `Json.noCaretB` over the items of an array. -/
def JsonArr.noCaretItems : JsonArr → Bool
  | .nil => true
  | .cons x tl => Json.noCaretB x && JsonArr.noCaretItems tl
/-- `Json.noCaretB` over the members of an object (keys included). -/
def JsonObj.noCaretMembers : JsonObj → Bool
  | .nil => true
  | .cons k v tl => !(decide (caretCh ∈ k.data)) && Json.noCaretB v && JsonObj.noCaretMembers tl
end

/-! ## Routes

The shape of an umi route record as this plugin touches it: its `path`, its
`component` (a code string) and its child `routes`; a field a route does not
carry is `none` (JavaScript `undefined`). -/

/-- A route record. -/
inductive Route where
  | mk (path : Option String) (component : String) (routes : Option (List Route)) : Route

/-- The route's `path` field. -/
def Route.path : Route → Option String
  | .mk p _ _ => p

/-- The route's `component` field. -/
def Route.component : Route → String
  | .mk _ c _ => c

/-- The route's child `routes` field. -/
def Route.routes : Route → Option (List Route)
  | .mk _ _ r => r

/-- The route with its `component` replaced (the in-place assignment
`root.component = ...` of core.ts line 112). -/
def Route.withComponent : Route → String → Route
  | .mk p _ r, c => .mk p c r

/-! ## Configuration model

`mergeUserConfig` (core.ts lines 15-43) merges the default options with the
user's configuration.  The fields carry the types the configuration surface
declares (strings, tag/label pairs, string lists, route lists; `menus`/`navs`
payloads are opaque JSON this plugin only passes through); `none` is an absent
key.  JavaScript truthiness on those types: a string is falsy iff empty,
arrays and objects are truthy, so for array-typed keys present = truthy. -/

/-- The nested `resolve` object.  The plugin creates exactly one — in the
default options literal (core.ts lines 59-65) — and `Object.assign`'s shallow
copy shares it between the defaults and every merged result, so it is modelled
as a single mutable cell threaded through the functions. -/
structure ResolveObj where
  includes : List String
  previewLangs : List String
deriving DecidableEq

/-- The user's `resolve` configuration, both keys optional. -/
structure UserResolve where
  includes : Option (List String)
  previewLangs : Option (List String)

/-- The user configuration keys `mergeUserConfig` reads from `api.config`. -/
structure UserConfig where
  mode : Option String
  title : Option String
  locales : Option (List (String × String))
  description : Option String
  logo : Option String
  menus : Option Json
  navs : Option Json
  resolve : Option UserResolve

/-- The user configuration with every key absent. -/
def emptyUserConfig : UserConfig :=
  { mode := none, title := none, locales := none, description := none,
    logo := none, menus := none, navs := none, resolve := none }

/-- The option object's own (top-level) properties.  The shared `resolve`
object is the `ResolveObj` cell threaded beside it. -/
structure Opts where
  title : String
  locales : List (String × String)
  mode : String
  description : Option String
  logo : Option String
  menus : Option Json
  navs : Option Json
  routes : Option (List Route)

/-- JavaScript `x || d` for an optional string value: an absent or empty
string is falsy. -/
def jsOrStr (u : Option String) (d : String) : String :=
  match u with
  | some s => if s = "" then d else s
  | none => d

/-- JavaScript `x || d` for an optional array value: any array is truthy. -/
def jsOrList {α : Type} (u : Option (List α)) (d : List α) : List α := u.getD d

/-- JavaScript truthiness of an optional string value. -/
def strOTruthy (u : Option String) : Bool :=
  match u with
  | some s => !(decide (s = ""))
  | none => false

/-- JavaScript truthiness of an optional JSON value (`menus`/`navs` payloads). -/
def jsonOTruthy (u : Option Json) : Bool :=
  match u with
  | some .null => false
  | some (.bool b) => b
  | some (.num n) => !(decide (n = 0))
  | some (.str s) => !(decide (s = ""))
  | some (.arr _) => true
  | some (.obj _) => true
  | none => false

/-- `mergeUserConfig` (core.ts lines 15-43).  `Object.assign({}, defaultOpts)`
copies the top-level bindings into a fresh `result` but shares the nested
`resolve` object, so the two `result.resolve[key] = ...` assignments write the
shared cell; `userRoutes` is `api.userConfig.routes`.  Returns the merged
result and the cell after the writes. -/
def mergeUserConfig (cell : ResolveObj) (defaults : Opts) (cfg : UserConfig)
    (userRoutes : Option (List Route)) : Opts × ResolveObj :=
  let result := defaults
  let result := { result with
    mode := jsOrStr cfg.mode result.mode,
    title := jsOrStr cfg.title result.title,
    locales := jsOrList cfg.locales result.locales }
  let result := { result with
    description := if strOTruthy cfg.description then cfg.description else result.description,
    logo := if strOTruthy cfg.logo then cfg.logo else result.logo,
    menus := if jsonOTruthy cfg.menus then cfg.menus else result.menus,
    navs := if jsonOTruthy cfg.navs then cfg.navs else result.navs }
  let cell := match cfg.resolve with
    | none => cell
    | some r =>
      { cell with
        includes := jsOrList r.includes cell.includes,
        previewLangs := jsOrList r.previewLangs cell.previewLangs }
  let result := { result with
    routes := if userRoutes.isSome then userRoutes else result.routes }
  (result, cell)

/-! ## Default options (core.ts lines 45-71) -/

/-- The `repository` field of a `package.json`: a plain URL string or an
object with an optional `url` property. -/
inductive RepoField where
  | strRepo (s : String)
  | objRepo (url : Option String)

/-- What `require(path.join(cwd, 'package.json'))` yields, restricted to the
fields the plugin reads; `none` models the `catch` branch (file absent or
unreadable), which leaves `pkg = {}`. -/
structure PkgJson where
  name : Option String
  repository : Option RepoField

/-- The single `resolve` object of the default options literal.
`relJoinSrc pkgPath` stands for the platform computation
`path.relative(api.paths.cwd, path.join(pkgPath, 'src'))`；`hostPkgAlias` is
the `(name, path)` list `getHostPkgAlias(api.paths)` returns. -/
def defaultResolve (relJoinSrc : String → String)
    (hostPkgAlias : List (String × String)) : ResolveObj :=
  { includes := hostPkgAlias.map (fun pr => relJoinSrc pr.2) ++ ["docs"],
    previewLangs := ["jsx", "tsx"] }

/-- The top-level default options: `title` is `pkg.name || 'dumi'`, the
locale table and mode are the literals of core.ts lines 66-70, and every key
the literal does not set is absent. -/
def defaultOpts (pkg : Option PkgJson) : Opts :=
  { title := jsOrStr (pkg.bind PkgJson.name) "dumi",
    locales := [("en-US", "English"), ("zh-CN", "中文")],
    mode := "doc",
    description := none, logo := none, menus := none, navs := none, routes := none }

/-! ## The two route passes -/

/-- `api.onPatchRoutesBefore` (core.ts lines 74-93).  With a parent route the
callback does nothing; at the top level it merges the options (mutating the
shared resolve cell), clears the incoming routes
(`routes.splice(0, routes.length)`), prepends the demo routes to the generated
result (`result.unshift(...getDemoRoutes(api.paths))`) and pushes the
combination (`routes.push(...result)`).  `getRouteConfig` is the external
route generator, given the merged options and the resolve contents it reads
through them. -/
def onPatchRoutesBefore (cell : ResolveObj) (defaults : Opts) (cfg : UserConfig)
    (userRoutes : Option (List Route))
    (getRouteConfig : Opts → ResolveObj → List Route) (demoRoutes : List Route)
    (routes : List Route) (parentRoute : Option Route) : List Route × ResolveObj :=
  match parentRoute with
  | some _ => (routes, cell)
  | none =>
    let m := mergeUserConfig cell defaults cfg userRoutes
    let result := getRouteConfig m.1 m.2
    (demoRoutes ++ result, m.2)

/-- `routes.find(route => route.path === '/')`. -/
def findRoot : List Route → Option Route
  | [] => none
  | r :: rs => if r.path = some "/" then some r else findRoot rs

/-- Replace the component of the first route whose path is `/` (the in-place
mutation of the object `find` returned). -/
def setRootComponent : List Route → String → List Route
  | [], _ => []
  | r :: rs, c =>
    if r.path = some "/" then Route.withComponent r c :: rs
    else r :: setRootComponent rs c

/-- The argument of `getRepoUrl`: `pkg.repository?.url || pkg.repository`. -/
inductive RepoArg where
  | undef
  | ofStr (s : String)
  | ofObj (url : Option String)

/-- Evaluate `pkg.repository?.url || pkg.repository`: a string repository has
no `url` (undefined is falsy) so the string itself is passed; an object
repository passes its `url` when that is truthy, else the object. -/
def repoArgOf (r : Option RepoField) : RepoArg :=
  match r with
  | none => .undef
  | some (.strRepo s) => .ofStr s
  | some (.objRepo u) =>
    match u with
    | some s => if s = "" then .ofObj u else .ofStr s
    | none => .ofObj none

/-- The metadata object literal of core.ts lines 100-109, keys in source
order.  A value of `none` is JavaScript `undefined` (for example `opts.logo`
when no logo is configured); the key is still present on the object. -/
def makeMeta (menusV localesV navsV : Option Json) (title : String)
    (logo desc : Option String) (mode : String) (repoUrlV : Option Json) :
    List (String × Option Json) :=
  [("menus", menusV), ("locales", localesV), ("navs", navsV),
   ("title", some (Json.str title)), ("logo", logo.map Json.str),
   ("desc", desc.map Json.str), ("mode", some (Json.str mode)),
   ("repoUrl", repoUrlV)]

/-- Convert an association list to a `JsonObj`. -/
def listToObj : List (String × Json) → JsonObj
  | [] => .nil
  | kv :: tl => .cons kv.1 kv.2 (listToObj tl)

/-- The JSON value `JSON.stringify` sees for the metadata object:
`undefined`-valued keys are dropped. -/
def metaJson (m : List (String × Option Json)) : Json :=
  Json.obj (listToObj (m.filterMap fun kv => kv.2.map fun v => (kv.1, v)))

/-- The template literal of core.ts lines 112-121 rewriting the root
component, with the serialized metadata spliced in. -/
def componentTemplate (oldComp : String) (ser : List Char) : List Char :=
  ("(props) => require('react').createElement(require('").data ++ oldComp.data
    ++ ("').default, \x7b\n      ...").data ++ ser
    ++ (",\n      ...props,\n    \x7d)").data

/-- `api.modifyRoutes` (core.ts lines 96-124): merge the options again, find
the root route of the final route list, build the metadata from the root's
child routes, and rewrite the root's component to the template embedding the
serialized metadata.  `getMenu`, `getLocale`, `getNav` and `getRepo` are the
external builders (`getMenuFromRoutes`, `getLocaleFromRoutes`,
`getNavFromRoutes`, `getRepoUrl`); `getNav`'s last argument is the explicit
`opts.navs` the code passes.  When no route has path `/`, the JavaScript
throws (`root.routes` on `undefined`), modelled as `none`.  Returns (result,
cell): the result carries the rewritten route list and the serialized
metadata characters. -/
def modifyRoutes (cell : ResolveObj) (defaults : Opts) (cfg : UserConfig)
    (userRoutes : Option (List Route)) (pkg : Option PkgJson)
    (getMenu : Option (List Route) → Opts → ResolveObj → Option Json)
    (getLocale : Option (List Route) → Opts → Option Json)
    (getNav : Option (List Route) → Opts → Option Json → Option Json)
    (getRepo : RepoArg → Option Json)
    (routes : List Route) : Option (List Route × List Char) × ResolveObj :=
  let m := mergeUserConfig cell defaults cfg userRoutes
  let opts := m.1
  (match findRoot routes with
   | none => none
   | some root =>
     let meta := makeMeta (getMenu root.routes opts m.2) (getLocale root.routes opts)
       (getNav root.routes opts opts.navs) opts.title opts.logo opts.description opts.mode
       (getRepo (repoArgOf (pkg.bind PkgJson.repository)))
     let ser := serializeChars (metaJson meta)
     some (setRootComponent routes (String.mk (componentTemplate root.component ser)), ser),
   m.2)

/-- One generation pass over a fixed input state: the top-level
`onPatchRoutesBefore` callback, then — after the host framework merges the
patched routes into its final list (`hostMerge`) — the `modifyRoutes`
callback.  Returns every output (patched routes, modified routes, serialized
metadata) together with the resolve cell the pass leaves behind. -/
def generationPass (cell : ResolveObj) (defaults : Opts) (cfg : UserConfig)
    (userRoutes : Option (List Route)) (pkg : Option PkgJson)
    (getRouteConfig : Opts → ResolveObj → List Route) (demoRoutes : List Route)
    (getMenu : Option (List Route) → Opts → ResolveObj → Option Json)
    (getLocale : Option (List Route) → Opts → Option Json)
    (getNav : Option (List Route) → Opts → Option Json → Option Json)
    (getRepo : RepoArg → Option Json)
    (incomingRoutes : List Route) (hostMerge : List Route → List Route) :
    (List Route × Option (List Route × List Char)) × ResolveObj :=
  let p1 := onPatchRoutesBefore cell defaults cfg userRoutes getRouteConfig demoRoutes
    incomingRoutes none
  let p2 := modifyRoutes p1.2 defaults cfg userRoutes pkg getMenu getLocale getNav getRepo
    (hostMerge p1.1)
  ((p1.1, p2.1), p2.2)

/-! ## The generated component's runtime merge -/

/-- Modelled from the spec: the runtime behavior of the generated root
component `(props) => createElement(Layout, { ...meta, ...props })` — the
ECMAScript object spread builds one object from both sources, later sources
overriding earlier ones on colliding keys.  On ordered association lists with
unique keys this is: the first object's entries with colliding values
replaced, then the second object's new entries. -/
def spreadMerge (a b : List (String × Json)) : List (String × Json) :=
  (a.map fun kv => (kv.1, (b.lookup kv.1).getD kv.2))
    ++ b.filter fun kv => (a.lookup kv.1).isNone

/-- The props the renderer receives at mount time: the embedded metadata
spread first, the runtime props spread second. -/
def mountProps (meta props : List (String × Json)) : List (String × Json) :=
  spreadMerge meta props

/-- A site-metadata object of the shape `api.modifyRoutes` serializes (the
eight keys of core.ts lines 100-109), whose strings contain a quote and a
control character but no caret. -/
def metaSample : Json :=
  Json.obj (JsonObj.cons "menus" (Json.arr (JsonArr.cons (Json.num 1) JsonArr.nil))
    (JsonObj.cons "locales" (Json.arr JsonArr.nil)
      (JsonObj.cons "navs" Json.null
        (JsonObj.cons "title" (Json.str "a\"b\nc")
          (JsonObj.cons "logo" Json.null
            (JsonObj.cons "desc" (Json.str "docs site")
              (JsonObj.cons "mode" (Json.str "doc")
                (JsonObj.cons "repoUrl" (Json.str "https://x.example") JsonObj.nil))))))))

/-- The same shape of site-metadata object, but with a caret character inside
the `title` string value. -/
def metaSampleCaret : Json :=
  Json.obj (JsonObj.cons "menus" (Json.arr (JsonArr.cons (Json.num 1) JsonArr.nil))
    (JsonObj.cons "locales" (Json.arr JsonArr.nil)
      (JsonObj.cons "navs" Json.null
        (JsonObj.cons "title" (Json.str "a^b")
          (JsonObj.cons "logo" Json.null
            (JsonObj.cons "desc" (Json.str "docs site")
              (JsonObj.cons "mode" (Json.str "doc")
                (JsonObj.cons "repoUrl" (Json.str "https://x.example") JsonObj.nil))))))))

/-- The metadata object `api.modifyRoutes` builds (core.ts lines 100-109),
as a function of the merged options and the root's child routes. -/
def metaParts (cell : ResolveObj) (defaults : Opts) (cfg : UserConfig)
    (userRoutes : Option (List Route)) (pkg : Option PkgJson)
    (getMenu : Option (List Route) → Opts → ResolveObj → Option Json)
    (getLocale : Option (List Route) → Opts → Option Json)
    (getNav : Option (List Route) → Opts → Option Json → Option Json)
    (getRepo : RepoArg → Option Json)
    (childRoutes : Option (List Route)) : List (String × Option Json) :=
  let m := mergeUserConfig cell defaults cfg userRoutes
  makeMeta (getMenu childRoutes m.1 m.2) (getLocale childRoutes m.1)
    (getNav childRoutes m.1 m.1.navs) m.1.title m.1.logo m.1.description m.1.mode
    (getRepo (repoArgOf (pkg.bind PkgJson.repository)))

/-! # Theorems -/

/-! ## Merge lemmas shared by several claims -/

/-- Merging the same user configuration a second time, starting from the
resolve cell the first merge left behind, changes nothing: the writes
overwrite the cell with the same user values. -/
theorem mergeUserConfig_stable (cell : ResolveObj) (defaults : Opts) (cfg : UserConfig)
    (userRoutes : Option (List Route)) :
    mergeUserConfig (mergeUserConfig cell defaults cfg userRoutes).2 defaults cfg userRoutes
      = mergeUserConfig cell defaults cfg userRoutes := by
  obtain ⟨mo, ti, lo, de, lg, me, na, re⟩ := cfg
  cases re with
  | none => rfl
  | some r =>
    obtain ⟨inc, pl⟩ := r
    cases inc <;> cases pl <;> rfl

/-! ## C6 — the top-level route patch replaces the routes with
demo routes followed by the generated doc routes -/

/-- C6: at the top level (no parent route) `onPatchRoutesBefore` drops every
pre-existing route and produces exactly the external demo routes followed by
the generated doc routes, in that order. -/
theorem onPatchRoutesBefore_top_level (cell : ResolveObj) (defaults : Opts)
    (cfg : UserConfig) (userRoutes : Option (List Route))
    (getRouteConfig : Opts → ResolveObj → List Route)
    (demoRoutes routes : List Route) :
    onPatchRoutesBefore cell defaults cfg userRoutes getRouteConfig demoRoutes routes none
      = (demoRoutes
          ++ getRouteConfig (mergeUserConfig cell defaults cfg userRoutes).1
            (mergeUserConfig cell defaults cfg userRoutes).2,
         (mergeUserConfig cell defaults cfg userRoutes).2) := rfl

/-! ## C10 — a nested route patch leaves the routes untouched -/

/-- C10: with a parent route present, `onPatchRoutesBefore` leaves the route
list (and the resolve cell) exactly as they were. -/
theorem onPatchRoutesBefore_nested_noop (cell : ResolveObj) (defaults : Opts)
    (cfg : UserConfig) (userRoutes : Option (List Route))
    (getRouteConfig : Opts → ResolveObj → List Route)
    (demoRoutes routes : List Route) (parent : Route) :
    onPatchRoutesBefore cell defaults cfg userRoutes getRouteConfig demoRoutes routes
        (some parent)
      = (routes, cell) := rfl

/-! ## C2 — the shallow copy shares the nested resolve object -/

/-- C2 counterexample: with a user configuration supplying
`resolve.includes`, `mergeUserConfig` mutates the resolve object it shares
with the default-options baseline — the nested `resolve.includes` of the
baseline is changed, refuting the claim that the baseline, including its
nested resolve values, stays unchanged. -/
theorem mergeUserConfig_mutates_shared_resolve :
    (mergeUserConfig { includes := ["docs"], previewLangs := ["jsx", "tsx"] }
        (defaultOpts none)
        { emptyUserConfig with
            resolve := some { includes := some ["pkg/src"], previewLangs := none } }
        none).2
      ≠ { includes := ["docs"], previewLangs := ["jsx", "tsx"] } := by
  decide

/-- C2 amended: `mergeUserConfig` never writes the baseline's own top-level
properties (`Object.assign` gives the result fresh bindings), but the nested
`resolve` object is shared by reference; the baseline — shared resolve
included — is unchanged exactly when the user configuration supplies neither
`resolve.includes` nor `resolve.previewLangs`. -/
theorem mergeUserConfig_baseline_unchanged_without_resolve_config
    (cell : ResolveObj) (defaults : Opts) (cfg : UserConfig)
    (userRoutes : Option (List Route))
    (h : cfg.resolve = none
      ∨ cfg.resolve = some { includes := none, previewLangs := none }) :
    (mergeUserConfig cell defaults cfg userRoutes).2 = cell := by
  rcases h with h | h <;> simp [mergeUserConfig, h, jsOrList]

/-- Witness for the amended C2 theorem at a concrete configuration. -/
theorem mergeUserConfig_baseline_witness :
    (mergeUserConfig { includes := ["docs"], previewLangs := ["jsx", "tsx"] }
        (defaultOpts none)
        { emptyUserConfig with title := some "site" } none).2
      = { includes := ["docs"], previewLangs := ["jsx", "tsx"] } :=
  mergeUserConfig_baseline_unchanged_without_resolve_config _ _ _ _ (Or.inl rfl)

/-! ## C8 — the per-key semantics of the merge -/

/-- C8: for `mode`, `title`, `locales` the merge takes the user value when it
is truthy and the default otherwise; `description`, `logo`, `menus`, `navs`
are taken only when truthy (a present array/object value is always truthy,
so for those "present" and "truthy" coincide) and otherwise keep the
baseline's value (absence, for the default baseline); a present
`resolve.includes` / `resolve.previewLangs` replaces the value in the resolve
object; a supplied `routes` configuration replaces the `routes` key. -/
theorem mergeUserConfig_key_semantics (cell : ResolveObj) (defaults : Opts)
    (cfg : UserConfig) (userRoutes : Option (List Route)) :
    (∀ s, cfg.mode = some s → s ≠ "" →
      (mergeUserConfig cell defaults cfg userRoutes).1.mode = s) ∧
    (strOTruthy cfg.mode = false →
      (mergeUserConfig cell defaults cfg userRoutes).1.mode = defaults.mode) ∧
    (∀ s, cfg.title = some s → s ≠ "" →
      (mergeUserConfig cell defaults cfg userRoutes).1.title = s) ∧
    (strOTruthy cfg.title = false →
      (mergeUserConfig cell defaults cfg userRoutes).1.title = defaults.title) ∧
    (∀ xs, cfg.locales = some xs →
      (mergeUserConfig cell defaults cfg userRoutes).1.locales = xs) ∧
    (cfg.locales = none →
      (mergeUserConfig cell defaults cfg userRoutes).1.locales = defaults.locales) ∧
    (∀ s, cfg.description = some s → s ≠ "" →
      (mergeUserConfig cell defaults cfg userRoutes).1.description = some s) ∧
    (strOTruthy cfg.description = false →
      (mergeUserConfig cell defaults cfg userRoutes).1.description = defaults.description) ∧
    (∀ s, cfg.logo = some s → s ≠ "" →
      (mergeUserConfig cell defaults cfg userRoutes).1.logo = some s) ∧
    (strOTruthy cfg.logo = false →
      (mergeUserConfig cell defaults cfg userRoutes).1.logo = defaults.logo) ∧
    (jsonOTruthy cfg.menus = true →
      (mergeUserConfig cell defaults cfg userRoutes).1.menus = cfg.menus) ∧
    (jsonOTruthy cfg.menus = false →
      (mergeUserConfig cell defaults cfg userRoutes).1.menus = defaults.menus) ∧
    (jsonOTruthy cfg.navs = true →
      (mergeUserConfig cell defaults cfg userRoutes).1.navs = cfg.navs) ∧
    (jsonOTruthy cfg.navs = false →
      (mergeUserConfig cell defaults cfg userRoutes).1.navs = defaults.navs) ∧
    (∀ r xs, cfg.resolve = some r → r.includes = some xs →
      (mergeUserConfig cell defaults cfg userRoutes).2.includes = xs) ∧
    ((∀ r, cfg.resolve = some r → r.includes = none) →
      (mergeUserConfig cell defaults cfg userRoutes).2.includes = cell.includes) ∧
    (∀ r xs, cfg.resolve = some r → r.previewLangs = some xs →
      (mergeUserConfig cell defaults cfg userRoutes).2.previewLangs = xs) ∧
    ((∀ r, cfg.resolve = some r → r.previewLangs = none) →
      (mergeUserConfig cell defaults cfg userRoutes).2.previewLangs = cell.previewLangs) ∧
    (∀ rs, userRoutes = some rs →
      (mergeUserConfig cell defaults cfg userRoutes).1.routes = some rs) ∧
    (userRoutes = none →
      (mergeUserConfig cell defaults cfg userRoutes).1.routes = defaults.routes) := by
  refine ⟨?_, ?_, ?_, ?_, ?_, ?_, ?_, ?_, ?_, ?_, ?_, ?_, ?_, ?_, ?_, ?_, ?_, ?_, ?_, ?_⟩
  · intro s hs hne
    simp [mergeUserConfig, jsOrStr, hs, hne]
  · intro h
    cases hm : cfg.mode with
    | none => simp [mergeUserConfig, jsOrStr, hm]
    | some s =>
      rw [hm] at h
      simp only [strOTruthy, Bool.not_eq_false', decide_eq_true_eq] at h
      simp [mergeUserConfig, jsOrStr, hm, h]
  · intro s hs hne
    simp [mergeUserConfig, jsOrStr, hs, hne]
  · intro h
    cases hm : cfg.title with
    | none => simp [mergeUserConfig, jsOrStr, hm]
    | some s =>
      rw [hm] at h
      simp only [strOTruthy, Bool.not_eq_false', decide_eq_true_eq] at h
      simp [mergeUserConfig, jsOrStr, hm, h]
  · intro xs hxs
    simp [mergeUserConfig, jsOrList, hxs]
  · intro h
    simp [mergeUserConfig, jsOrList, h]
  · intro s hs hne
    have ht : strOTruthy (some s) = true := by
      simp [strOTruthy, hne]
    simp [mergeUserConfig, hs, ht]
  · intro h
    simp [mergeUserConfig, h]
  · intro s hs hne
    have ht : strOTruthy (some s) = true := by
      simp [strOTruthy, hne]
    simp [mergeUserConfig, hs, ht]
  · intro h
    simp [mergeUserConfig, h]
  · intro h
    simp [mergeUserConfig, h]
  · intro h
    simp [mergeUserConfig, h]
  · intro h
    simp [mergeUserConfig, h]
  · intro h
    simp [mergeUserConfig, h]
  · intro r xs hr hxs
    simp [mergeUserConfig, hr, hxs, jsOrList]
  · intro h
    cases hr : cfg.resolve with
    | none => simp [mergeUserConfig, hr]
    | some r => simp [mergeUserConfig, hr, h r hr, jsOrList]
  · intro r xs hr hxs
    simp [mergeUserConfig, hr, hxs, jsOrList]
  · intro h
    cases hr : cfg.resolve with
    | none => simp [mergeUserConfig, hr]
    | some r => simp [mergeUserConfig, hr, h r hr, jsOrList]
  · intro rs hrs
    simp [mergeUserConfig, hrs]
  · intro h
    simp [mergeUserConfig, h]

/-- Witness for C8 at a concrete configuration: a truthy `mode` wins, a
supplied `resolve.includes` replaces the default include list. -/
theorem mergeUserConfig_key_semantics_witness :
    (mergeUserConfig { includes := ["docs"], previewLangs := ["jsx", "tsx"] }
        (defaultOpts none)
        { emptyUserConfig with
            mode := some "site",
            resolve := some { includes := some ["a/src"], previewLangs := none } }
        none).1.mode = "site"
    ∧ (mergeUserConfig { includes := ["docs"], previewLangs := ["jsx", "tsx"] }
        (defaultOpts none)
        { emptyUserConfig with
            mode := some "site",
            resolve := some { includes := some ["a/src"], previewLangs := none } }
        none).2.includes = ["a/src"] := by
  constructor
  · exact (mergeUserConfig_key_semantics _ _ _ _).1 "site" rfl (by decide)
  · exact (mergeUserConfig_key_semantics _ _ _ _).2.2.2.2.2.2.2.2.2.2.2.2.2.2.1
      { includes := some ["a/src"], previewLangs := none } ["a/src"] rfl rfl

/-! ## C9 — the default options -/

/-- C9: with no user configuration the merge is the identity on the defaults,
whose values are: `resolve.includes` is each workspace package's `src`
directory (via the platform's relative/join computation) followed by `docs`;
`resolve.previewLangs` is `jsx`, `tsx`; `mode` is `doc`; `locales` is the
en-US/zh-CN table; `title` is the host `package.json`'s name, falling back to
`dumi` when the `package.json` is absent or unreadable. -/
theorem defaultOpts_values (pkg : Option PkgJson) (relJoinSrc : String → String)
    (hostPkgAlias : List (String × String)) :
    mergeUserConfig (defaultResolve relJoinSrc hostPkgAlias) (defaultOpts pkg)
        emptyUserConfig none
      = (defaultOpts pkg, defaultResolve relJoinSrc hostPkgAlias) ∧
    (defaultResolve relJoinSrc hostPkgAlias).includes
      = hostPkgAlias.map (fun pr => relJoinSrc pr.2) ++ ["docs"] ∧
    (defaultResolve relJoinSrc hostPkgAlias).previewLangs = ["jsx", "tsx"] ∧
    (defaultOpts pkg).mode = "doc" ∧
    (defaultOpts pkg).locales = [("en-US", "English"), ("zh-CN", "中文")] ∧
    (pkg = none → (defaultOpts pkg).title = "dumi") ∧
    (∀ p n, pkg = some p → p.name = some n → n ≠ "" → (defaultOpts pkg).title = n) := by
  refine ⟨rfl, rfl, rfl, rfl, rfl, ?_, ?_⟩
  · intro h
    subst h
    rfl
  · intro p n hp hn hne
    subst hp
    simp [defaultOpts, jsOrStr, hn, hne]

/-- Witness for C9 with an unreadable `package.json`. -/
theorem defaultOpts_values_witness :
    (defaultOpts none).title = "dumi" ∧ (defaultOpts none).mode = "doc" :=
  ⟨(defaultOpts_values none id []).2.2.2.2.2.1 rfl, (defaultOpts_values none id []).2.2.2.1⟩

/-! ## C3 — generation is deterministic and idempotent -/

/-- C3: with a fixed input state (package.json contents, host package
aliases via the default options, user configuration, incoming route list and
the external builders), running the patch pass and the modification pass a
second time — from the resolve-cell state the first run left behind —
produces exactly the outputs of the first run: the same patched route list,
the same final route list and a byte-identical serialized metadata character
sequence. -/
theorem generationPass_idempotent (cell : ResolveObj) (defaults : Opts)
    (cfg : UserConfig) (userRoutes : Option (List Route)) (pkg : Option PkgJson)
    (getRouteConfig : Opts → ResolveObj → List Route) (demoRoutes : List Route)
    (getMenu : Option (List Route) → Opts → ResolveObj → Option Json)
    (getLocale : Option (List Route) → Opts → Option Json)
    (getNav : Option (List Route) → Opts → Option Json → Option Json)
    (getRepo : RepoArg → Option Json)
    (incomingRoutes : List Route) (hostMerge : List Route → List Route) :
    (generationPass
        (generationPass cell defaults cfg userRoutes pkg getRouteConfig demoRoutes
          getMenu getLocale getNav getRepo incomingRoutes hostMerge).2
        defaults cfg userRoutes pkg getRouteConfig demoRoutes
        getMenu getLocale getNav getRepo incomingRoutes hostMerge).1
      = (generationPass cell defaults cfg userRoutes pkg getRouteConfig demoRoutes
          getMenu getLocale getNav getRepo incomingRoutes hostMerge).1 := by
  simp only [generationPass, onPatchRoutesBefore, modifyRoutes,
    mergeUserConfig_stable]

/-! ## C4 — runtime props take precedence over the injected metadata -/

/-- Looking a key up in the concatenation tries the first list, then the
second. -/
theorem lookup_append_or {α β : Type} [BEq α] (x y : List (α × β)) (k : α) :
    (x ++ y).lookup k = ((x.lookup k).orElse fun _ => y.lookup k) := by
  induction x with
  | nil => simp [List.lookup]
  | cons kv tl ih =>
    obtain ⟨k1, v1⟩ := kv
    cases hbe : k == k1 <;> simp [List.lookup, hbe, ih]

/-- Looking a key up after a key-preserving value rewrite. -/
theorem lookup_map_values (a : List (String × Json)) (g : String → Json → Json)
    (k : String) :
    ((a.map fun kv => (kv.1, g kv.1 kv.2)).lookup k) = (a.lookup k).map (g k) := by
  induction a with
  | nil => simp [List.lookup]
  | cons kv tl ih =>
    obtain ⟨k1, v1⟩ := kv
    cases hbe : k == k1
    · simp [List.lookup, hbe, ih]
    · have : k = k1 := by simpa using hbe
      subst this
      simp [List.lookup, hbe]

/-- Looking a key up after filtering on a predicate of the key alone. -/
theorem lookup_filter_keys (b : List (String × Json)) (p : String → Bool)
    (k : String) :
    ((b.filter fun kv => p kv.1).lookup k) = if p k then b.lookup k else none := by
  induction b with
  | nil => simp [List.lookup]
  | cons kv tl ih =>
    obtain ⟨k1, v1⟩ := kv
    cases hbe : k == k1
    · cases hp : p k1 <;> simp [List.filter, List.lookup, hbe, hp, ih]
    · have hk : k = k1 := by simpa using hbe
      subst hk
      cases hp : p k <;> simp [List.filter, List.lookup, hbe, hp, ih]

/-- C4: the props the renderer receives are the injected metadata merged with
the runtime props, and on every key the runtime props win — the metadata
value is used only where the runtime props carry no such key. -/
theorem mountProps_runtime_wins (meta props : List (String × Json)) (k : String) :
    (mountProps meta props).lookup k
      = ((props.lookup k).orElse fun _ => meta.lookup k) := by
  unfold mountProps spreadMerge
  rw [lookup_append_or, lookup_map_values meta (fun k1 v => (props.lookup k1).getD v) k,
    lookup_filter_keys props (fun k1 => (meta.lookup k1).isNone) k]
  cases ha : meta.lookup k <;> cases hb : props.lookup k <;> simp [ha, hb]

/-! ## C7 — navigation metadata is computed from the final merged child list -/

/-- C7: the second pass computes the injected metadata — menus, locales,
navs and the rest — by applying the builders to the child routes of the root
(`path = '/'`) entry of the route list it is handed (the final merged list,
external injections included); the serialized metadata and the rewritten
component embed exactly that. -/
theorem modifyRoutes_meta_from_final_children (cell : ResolveObj) (defaults : Opts)
    (cfg : UserConfig) (userRoutes : Option (List Route)) (pkg : Option PkgJson)
    (getMenu : Option (List Route) → Opts → ResolveObj → Option Json)
    (getLocale : Option (List Route) → Opts → Option Json)
    (getNav : Option (List Route) → Opts → Option Json → Option Json)
    (getRepo : RepoArg → Option Json)
    (routes : List Route) (root : Route)
    (h : findRoot routes = some root) :
    modifyRoutes cell defaults cfg userRoutes pkg getMenu getLocale getNav getRepo routes
      = (some (setRootComponent routes
            (String.mk (componentTemplate root.component
              (serializeChars (metaJson (metaParts cell defaults cfg userRoutes pkg
                getMenu getLocale getNav getRepo root.routes))))),
           serializeChars (metaJson (metaParts cell defaults cfg userRoutes pkg
             getMenu getLocale getNav getRepo root.routes))),
         (mergeUserConfig cell defaults cfg userRoutes).2) := by
  simp only [modifyRoutes, metaParts, h]

/-- Witness for C7 on a two-route list whose root carries one child. -/
theorem modifyRoutes_meta_from_final_children_witness :
    modifyRoutes { includes := ["docs"], previewLangs := ["jsx", "tsx"] }
        (defaultOpts none) emptyUserConfig none none
        (fun _ _ _ => none) (fun _ _ => none) (fun _ _ _ => none) (fun _ => none)
        [Route.mk (some "/other") "o.js" none,
         Route.mk (some "/") "layout.js" (some [Route.mk (some "/a") "a.js" none])]
      = (some (setRootComponent
            [Route.mk (some "/other") "o.js" none,
             Route.mk (some "/") "layout.js" (some [Route.mk (some "/a") "a.js" none])]
            (String.mk (componentTemplate "layout.js"
              (serializeChars (metaJson (metaParts
                { includes := ["docs"], previewLangs := ["jsx", "tsx"] }
                (defaultOpts none) emptyUserConfig none none
                (fun _ _ _ => none) (fun _ _ => none) (fun _ _ _ => none) (fun _ => none)
                (some [Route.mk (some "/a") "a.js" none])))))),
           serializeChars (metaJson (metaParts
             { includes := ["docs"], previewLangs := ["jsx", "tsx"] }
             (defaultOpts none) emptyUserConfig none none
             (fun _ _ _ => none) (fun _ _ => none) (fun _ _ _ => none) (fun _ => none)
             (some [Route.mk (some "/a") "a.js" none])))),
         (mergeUserConfig { includes := ["docs"], previewLangs := ["jsx", "tsx"] }
           (defaultOpts none) emptyUserConfig none).2) :=
  modifyRoutes_meta_from_final_children _ _ _ _ _ _ _ _ _ _
    (Route.mk (some "/") "layout.js" (some [Route.mk (some "/a") "a.js" none])) rfl

/-! ## C5 — the injected metadata object -/

/-- C5: the metadata object injected as default render props has exactly the
keys `menus`, `locales`, `navs`, `title`, `logo`, `desc`, `mode`, `repoUrl`;
`menus`, `locales` and `navs` are the builders applied to the root's child
routes and the merged options, `title`, `logo`, `desc`, `mode` come from the
merged options, `repoUrl` comes from the `package.json` repository field; and
the second pass injects exactly this object for the root's child routes. -/
theorem modifyRoutes_meta_keys (cell : ResolveObj) (defaults : Opts)
    (cfg : UserConfig) (userRoutes : Option (List Route)) (pkg : Option PkgJson)
    (getMenu : Option (List Route) → Opts → ResolveObj → Option Json)
    (getLocale : Option (List Route) → Opts → Option Json)
    (getNav : Option (List Route) → Opts → Option Json → Option Json)
    (getRepo : RepoArg → Option Json)
    (routes : List Route) (root : Route)
    (h : findRoot routes = some root) :
    ((metaParts cell defaults cfg userRoutes pkg getMenu getLocale getNav getRepo
        root.routes).map Prod.fst
      = ["menus", "locales", "navs", "title", "logo", "desc", "mode", "repoUrl"]) ∧
    (metaParts cell defaults cfg userRoutes pkg getMenu getLocale getNav getRepo
        root.routes
      = makeMeta
          (getMenu root.routes (mergeUserConfig cell defaults cfg userRoutes).1
            (mergeUserConfig cell defaults cfg userRoutes).2)
          (getLocale root.routes (mergeUserConfig cell defaults cfg userRoutes).1)
          (getNav root.routes (mergeUserConfig cell defaults cfg userRoutes).1
            (mergeUserConfig cell defaults cfg userRoutes).1.navs)
          (mergeUserConfig cell defaults cfg userRoutes).1.title
          (mergeUserConfig cell defaults cfg userRoutes).1.logo
          (mergeUserConfig cell defaults cfg userRoutes).1.description
          (mergeUserConfig cell defaults cfg userRoutes).1.mode
          (getRepo (repoArgOf (pkg.bind PkgJson.repository)))) ∧
    ((modifyRoutes cell defaults cfg userRoutes pkg getMenu getLocale getNav getRepo
        routes).1
      = some (setRootComponent routes
            (String.mk (componentTemplate root.component
              (serializeChars (metaJson (metaParts cell defaults cfg userRoutes pkg
                getMenu getLocale getNav getRepo root.routes))))),
           serializeChars (metaJson (metaParts cell defaults cfg userRoutes pkg
             getMenu getLocale getNav getRepo root.routes)))) := by
  refine ⟨rfl, rfl, ?_⟩
  simp only [modifyRoutes, metaParts, h]

/-- Witness for C5 on a singleton route list. -/
theorem modifyRoutes_meta_keys_witness :
    ((metaParts { includes := ["docs"], previewLangs := ["jsx", "tsx"] }
        (defaultOpts none) emptyUserConfig none none
        (fun _ _ _ => none) (fun _ _ => none) (fun _ _ _ => none) (fun _ => none)
        (Route.mk (some "/") "layout.js" none).routes).map Prod.fst
      = ["menus", "locales", "navs", "title", "logo", "desc", "mode", "repoUrl"]) :=
  (modifyRoutes_meta_keys { includes := ["docs"], previewLangs := ["jsx", "tsx"] }
    (defaultOpts none) emptyUserConfig none none
    (fun _ _ _ => none) (fun _ _ => none) (fun _ _ _ => none) (fun _ => none)
    [Route.mk (some "/") "layout.js" none]
    (Route.mk (some "/") "layout.js" none) rfl).1

/-! ## C1 — round trip of the serialized metadata

The stack below proves that parsing the serialization recovers the value:
digit rendering against digit parsing, escaping against unescaping, a fuel
bound, the main induction over the value, and the caret encoding. -/

/-- `skipWs` is the identity on input starting with a non-whitespace
character. -/
theorem skipWs_not_ws {c : Char} (h : isWsCh c = false) (cs : List Char) :
    skipWs (c :: cs) = c :: cs := by
  simp [skipWs, h]

/-- The rendered digit of `d < 10` is a digit character. -/
theorem digitCh_isDigit {d : Nat} (h : d < 10) : (digitCh d).isDigit = true := by
  interval_cases d <;> decide

/-- The code of the rendered digit of `d < 10`. -/
theorem digitCh_toNat {d : Nat} (h : d < 10) : (digitCh d).toNat = 48 + d := by
  interval_cases d <;> decide

/-- A digit character is not JSON whitespace. -/
theorem digit_not_ws {c : Char} (h : c.isDigit = true) : isWsCh c = false := by
  by_contra hws
  rw [Bool.not_eq_false] at hws
  simp only [isWsCh, Bool.or_eq_true, decide_eq_true_eq] at hws
  rcases hws with ((h1 | h1) | h1) | h1 <;> (subst h1; exact absurd h (by decide))

/-- `parseDigits` stops at a non-digit. -/
theorem parseDigits_cons_not {c : Char} (h : c.isDigit = false) (cs : List Char)
    (acc : Nat) : parseDigits (c :: cs) acc = (acc, c :: cs) := by
  simp [parseDigits, h]

/-- The rendering of `natCharsAux` with enough fuel: a nonempty run of digit
characters in front of the accumulator, which `parseDigits` consumes exactly,
shifting its accumulator. -/
theorem natCharsAux_spec : ∀ (f n : Nat) (acc : List Char), n < f →
    ∃ ds : List Char, natCharsAux f n acc = ds ++ acc ∧ ds ≠ [] ∧
      (∀ c ∈ ds, c.isDigit = true) ∧
      ∀ (acc0 : Nat) (cs : List Char),
        parseDigits (ds ++ cs) acc0 = parseDigits cs (acc0 * 10 ^ ds.length + n) := by
  intro f
  induction f with
  | zero => intro n acc h; omega
  | succ f ih =>
    intro n acc h
    by_cases h10 : n / 10 = 0
    · have hn : n < 10 := by omega
      refine ⟨[digitCh (n % 10)], ?_, by simp, ?_, ?_⟩
      · simp [natCharsAux, h10]
      · intro c hc
        rw [List.mem_singleton] at hc
        subst hc
        exact digitCh_isDigit (by omega)
      · intro acc0 cs
        rw [List.singleton_append, parseDigits, if_pos (digitCh_isDigit (by omega)),
          digitCh_toNat (by omega)]
        have heq : acc0 * 10 + (48 + n % 10 - 48)
            = acc0 * 10 ^ ([digitCh (n % 10)] : List Char).length + n := by
          simp only [List.length_singleton, pow_one]
          omega
        rw [heq]
    · have hn10 : n / 10 < f := by omega
      obtain ⟨ds, hds, hne, hdig, hval⟩ := ih (n / 10) (digitCh (n % 10) :: acc) hn10
      refine ⟨ds ++ [digitCh (n % 10)], ?_, by simp, ?_, ?_⟩
      · have hstep : natCharsAux (f + 1) n acc
            = natCharsAux f (n / 10) (digitCh (n % 10) :: acc) := by
          simp [natCharsAux, h10]
        rw [hstep, hds, List.append_assoc, List.singleton_append]
      · intro c hc
        rw [List.mem_append, List.mem_singleton] at hc
        rcases hc with hc | hc
        · exact hdig c hc
        · subst hc
          exact digitCh_isDigit (by omega)
      · intro acc0 cs
        rw [List.append_assoc, hval, List.singleton_append, parseDigits,
          if_pos (digitCh_isDigit (by omega)), digitCh_toNat (by omega)]
        have harith : (acc0 * 10 ^ ds.length + n / 10) * 10 + (48 + n % 10 - 48)
            = acc0 * 10 ^ (ds ++ [digitCh (n % 10)]).length + n := by
          rw [List.length_append, List.length_singleton, pow_succ, ← Nat.mul_assoc]
          generalize acc0 * 10 ^ ds.length = X
          omega
        rw [harith]

/-- The decimal rendering of a natural: nonempty, all digits, and
`parseDigits` reads its value off the front. -/
theorem natChars_spec (n : Nat) : natChars n ≠ [] ∧
    (∀ c ∈ natChars n, c.isDigit = true) ∧
    ∀ cs, parseDigits (natChars n ++ cs) 0 = parseDigits cs n := by
  obtain ⟨ds, hds, hne, hdig, hval⟩ := natCharsAux_spec (n + 1) n [] (by omega)
  have hnc : natChars n = ds := by rw [natChars, hds, List.append_nil]
  rw [hnc]
  refine ⟨hne, hdig, fun cs => ?_⟩
  rw [hval 0 cs, Nat.zero_mul, Nat.zero_add]

/-- A boundary continuation does not start with a digit, so `parseDigits`
returns immediately on it. -/
theorem parseDigits_boundary {rest : List Char} (h : numBoundaryB rest = true)
    (m : Nat) : parseDigits rest m = (m, rest) := by
  cases rest with
  | nil => rfl
  | cons c cs =>
    simp only [numBoundaryB, Bool.not_eq_true', Bool.or_eq_false_iff] at h
    exact parseDigits_cons_not h.1.1.1 cs m

/-- A boundary continuation also satisfies the number-termination check. -/
theorem numStop_of_boundary {rest : List Char} (h : numBoundaryB rest = true) :
    numStop rest = true := by
  cases rest with
  | nil => rfl
  | cons c cs =>
    simp only [numBoundaryB, Bool.not_eq_true', Bool.or_eq_false_iff] at h
    simp [numStop, h.1.1.2, h.1.2, h.2]

/-- Parsing the rendered integer recovers it and stops at the boundary. -/
theorem parseNum_intChars (n : Int) (rest : List Char) (h : numBoundaryB rest = true) :
    parseNum (intChars n ++ rest) = some (n, rest) := by
  by_cases hneg : n < 0
  · rw [intChars, if_pos hneg, List.cons_append]
    obtain ⟨hne, hdig, hval⟩ := natChars_spec n.natAbs
    cases hnc : natChars n.natAbs with
    | nil => exact absurd hnc hne
    | cons c0 t =>
      have hd0 : c0.isDigit = true := hdig c0 (by rw [hnc]; exact List.mem_cons_self ..)
      have hparse : parseDigits (c0 :: (t ++ rest)) 0 = (n.natAbs, rest) := by
        rw [← List.cons_append, ← hnc, hval rest, parseDigits_boundary h]
      have hint : -(n.natAbs : Int) = n := by omega
      simp [parseNum, hd0, hparse, numStop_of_boundary h, hint]
      rw [abs_of_neg hneg, neg_neg]
  · rw [intChars, if_neg hneg]
    obtain ⟨hne, hdig, hval⟩ := natChars_spec n.toNat
    cases hnc : natChars n.toNat with
    | nil => exact absurd hnc hne
    | cons c0 t =>
      have hd0 : c0.isDigit = true := hdig c0 (by rw [hnc]; exact List.mem_cons_self ..)
      have hnotminus : ¬(c0 = '-') := fun heq => by
        rw [heq] at hd0
        exact absurd hd0 (by decide)
      have hparse : parseDigits (c0 :: (t ++ rest)) 0 = (n.toNat, rest) := by
        rw [← List.cons_append, ← hnc, hval rest, parseDigits_boundary h]
      have hint : (n.toNat : Int) = n := by omega
      simp [parseNum, hnotminus, hd0, hparse, numStop_of_boundary h, hint]

/-- Hexadecimal digit render/parse round trip. -/
theorem hexVal_hexDigitCh {d : Nat} (h : d < 16) : hexVal (hexDigitCh d) = some d := by
  interval_cases d <;> decide

/-- Parsing the escaped body of a string, up to the closing quote, recovers
the original characters. -/
theorem parseStrBody_escList (s : List Char) (rest : List Char) :
    parseStrBody (escList s ++ quoteCh :: rest) = some (s, rest) := by
  induction s generalizing rest with
  | nil =>
    rw [escList, List.nil_append, parseStrBody.eq_def]
    simp
  | cons c s ih =>
    rw [escList, List.append_assoc, escChar]
    by_cases h1 : c = quoteCh
    · subst h1
      rw [if_pos rfl, parseStrBody.eq_def]
      simp +decide [unescCh, ih]
    · rw [if_neg h1]
      by_cases h2 : c = backslashCh
      · subst h2
        rw [if_pos rfl, parseStrBody.eq_def]
        simp +decide [unescCh, ih]
      · rw [if_neg h2]
        by_cases h3 : c = Char.ofNat 10
        · subst h3
          rw [if_pos rfl, parseStrBody.eq_def]
          simp +decide [unescCh, ih]
        · rw [if_neg h3]
          by_cases h4 : c = Char.ofNat 13
          · subst h4
            rw [if_pos rfl, parseStrBody.eq_def]
            simp +decide [unescCh, ih]
          · rw [if_neg h4]
            by_cases h5 : c = Char.ofNat 9
            · subst h5
              rw [if_pos rfl, parseStrBody.eq_def]
              simp +decide [unescCh, ih]
            · rw [if_neg h5]
              by_cases h6 : c = Char.ofNat 8
              · subst h6
                rw [if_pos rfl, parseStrBody.eq_def]
                simp +decide [unescCh, ih]
              · rw [if_neg h6]
                by_cases h7 : c = Char.ofNat 12
                · subst h7
                  rw [if_pos rfl, parseStrBody.eq_def]
                  simp +decide [unescCh, ih]
                · rw [if_neg h7]
                  by_cases h8 : c.toNat < 32
                  · rw [if_pos h8, parseStrBody.eq_def]
                    have hv1 : hexVal (hexDigitCh (c.toNat / 16)) = some (c.toNat / 16) :=
                      hexVal_hexDigitCh (by omega)
                    have hv2 : hexVal (hexDigitCh (c.toNat % 16)) = some (c.toNat % 16) :=
                      hexVal_hexDigitCh (by omega)
                    have hn : ((0 * 16 + 0) * 16 + c.toNat / 16) * 16 + c.toNat % 16
                        = c.toNat := by omega
                    have hvalid : (c.toNat).isValidChar := Or.inl (by omega)
                    have hz0 : hexVal ('0') = some 0 := rfl
                    simp +decide [hz0, hv1, hv2, hn, hvalid, ih]
                    rw [show c.toNat / 16 * 16 + c.toNat % 16 = c.toNat by omega]
                    exact ⟨hvalid, Char.ofNat_toNat c⟩
                  · rw [if_neg h8, List.singleton_append, parseStrBody.eq_def]
                    simp [h1, h2, h8, ih]

/-- Every serialization starts with a non-whitespace character that is not a
closing bracket. -/
theorem strChars_head (v : Json) :
    ∃ c t, Json.strChars v = c :: t ∧ isWsCh c = false ∧ ¬(c = ']') := by
  cases v with
  | null => exact ⟨'n', _, rfl, by decide, by decide⟩
  | bool b => cases b
              · exact ⟨'f', _, rfl, by decide, by decide⟩
              · exact ⟨'t', _, rfl, by decide, by decide⟩
  | num n =>
    show ∃ c t, intChars n = c :: t ∧ _
    by_cases hneg : n < 0
    · rw [intChars, if_pos hneg]
      exact ⟨'-', _, rfl, by decide, by decide⟩
    · rw [intChars, if_neg hneg]
      obtain ⟨hne, hdig, _⟩ := natChars_spec n.toNat
      cases hnc : natChars n.toNat with
      | nil => exact absurd hnc hne
      | cons c0 t =>
        have hd : c0.isDigit = true := hdig c0 (by rw [hnc]; exact List.mem_cons_self ..)
        refine ⟨c0, t, rfl, digit_not_ws hd, fun heq => ?_⟩
        rw [heq] at hd
        exact absurd hd (by decide)
  | str s => exact ⟨quoteCh, _, rfl, by decide, by decide⟩
  | arr xs => exact ⟨'[', _, rfl, by decide, by decide⟩
  | obj kvs => exact ⟨lbraceCh, _, rfl, by decide, by decide⟩

/-- A serialization is never empty. -/
theorem strChars_length_pos (v : Json) : 1 ≤ (Json.strChars v).length := by
  obtain ⟨c, t, heq, -, -⟩ := strChars_head v
  rw [heq]
  simp

mutual
/-- The fuel a value needs is dominated by its serialized length. -/
theorem pfuel_le_length : ∀ v : Json, Json.pfuel v ≤ (Json.strChars v).length
  | .null => by decide
  | .bool b => by cases b <;> decide
  | .num n => by
    have := strChars_length_pos (Json.num n)
    simp only [Json.pfuel]
    omega
  | .str s => by
    have := strChars_length_pos (Json.str s)
    simp only [Json.pfuel]
    omega
  | .arr xs => by
    have h := pfuelItems_le_length xs
    rw [show Json.pfuel (Json.arr xs) = JsonArr.pfuelItems xs + 1 from rfl,
      show Json.strChars (Json.arr xs) = '[' :: (JsonArr.itemsChars xs ++ [']']) from rfl]
    simp only [List.length_cons, List.length_append, List.length_singleton]
    omega
  | .obj kvs => by
    have h := pfuelMembers_le_length kvs
    rw [show Json.pfuel (Json.obj kvs) = JsonObj.pfuelMembers kvs + 1 from rfl,
      show Json.strChars (Json.obj kvs)
        = lbraceCh :: (JsonObj.membersChars kvs ++ [rbraceCh]) from rfl]
    simp only [List.length_cons, List.length_append, List.length_singleton]
    omega
/-- The fuel an item list needs is dominated by its serialized length. -/
theorem pfuelItems_le_length : ∀ xs : JsonArr,
    JsonArr.pfuelItems xs ≤ (JsonArr.itemsChars xs).length + 1
  | .nil => by decide
  | .cons x .nil => by
    have hx := pfuel_le_length x
    have hp := strChars_length_pos x
    rw [show JsonArr.pfuelItems (JsonArr.cons x JsonArr.nil)
        = Nat.max (Json.pfuel x) 1 + 1 from rfl,
      show JsonArr.itemsChars (JsonArr.cons x JsonArr.nil) = Json.strChars x from rfl]
    have hmax : Nat.max (Json.pfuel x) 1 ≤ (Json.strChars x).length :=
      Nat.max_le.mpr ⟨hx, hp⟩
    omega
  | .cons x (.cons y tl) => by
    have hx := pfuel_le_length x
    have hp := strChars_length_pos x
    have ht := pfuelItems_le_length (JsonArr.cons y tl)
    rw [show JsonArr.pfuelItems (JsonArr.cons x (JsonArr.cons y tl))
        = Nat.max (Json.pfuel x) (JsonArr.pfuelItems (JsonArr.cons y tl)) + 1 from rfl,
      show JsonArr.itemsChars (JsonArr.cons x (JsonArr.cons y tl))
        = Json.strChars x ++ ',' :: JsonArr.itemsChars (JsonArr.cons y tl) from rfl]
    simp only [List.length_append, List.length_cons]
    have hmax : Nat.max (Json.pfuel x) (JsonArr.pfuelItems (JsonArr.cons y tl))
        ≤ (Json.strChars x).length + (JsonArr.itemsChars (JsonArr.cons y tl)).length + 1 :=
      Nat.max_le.mpr ⟨by omega, by omega⟩
    omega
/-- The fuel a member list needs is dominated by its serialized length. -/
theorem pfuelMembers_le_length : ∀ kvs : JsonObj,
    JsonObj.pfuelMembers kvs ≤ (JsonObj.membersChars kvs).length + 1
  | .nil => by decide
  | .cons k v .nil => by
    have hv := pfuel_le_length v
    rw [show JsonObj.pfuelMembers (JsonObj.cons k v JsonObj.nil)
        = Nat.max (Json.pfuel v) 1 + 1 from rfl,
      show JsonObj.membersChars (JsonObj.cons k v JsonObj.nil)
        = quoteCh :: (escList k.data ++ quoteCh :: ':' :: Json.strChars v) from rfl]
    simp only [List.length_cons, List.length_append]
    have hmax : Nat.max (Json.pfuel v) 1 ≤ (Json.strChars v).length + 2 :=
      Nat.max_le.mpr ⟨by omega, by omega⟩
    omega
  | .cons k v (.cons k2 v2 tl) => by
    have hv := pfuel_le_length v
    have ht := pfuelMembers_le_length (JsonObj.cons k2 v2 tl)
    rw [show JsonObj.pfuelMembers (JsonObj.cons k v (JsonObj.cons k2 v2 tl))
        = Nat.max (Json.pfuel v) (JsonObj.pfuelMembers (JsonObj.cons k2 v2 tl)) + 1
        from rfl,
      show JsonObj.membersChars (JsonObj.cons k v (JsonObj.cons k2 v2 tl))
        = (quoteCh :: (escList k.data ++ quoteCh :: ':' :: Json.strChars v))
          ++ ',' :: JsonObj.membersChars (JsonObj.cons k2 v2 tl) from rfl]
    simp only [List.length_cons, List.length_append]
    have hmax : Nat.max (Json.pfuel v) (JsonObj.pfuelMembers (JsonObj.cons k2 v2 tl))
        ≤ (Json.strChars v).length
          + (JsonObj.membersChars (JsonObj.cons k2 v2 tl)).length + 2 :=
      Nat.max_le.mpr ⟨by omega, by omega⟩
    omega
end

/-- Every value needs at least one unit of fuel. -/
theorem pfuel_pos (v : Json) : 1 ≤ Json.pfuel v := by
  cases v <;> simp only [Json.pfuel] <;> omega

/-- A comma starts a number boundary. -/
theorem numBoundaryB_comma (cs : List Char) : numBoundaryB (',' :: cs) = true := rfl

/-- A closing bracket starts a number boundary. -/
theorem numBoundaryB_rbracket (cs : List Char) : numBoundaryB (']' :: cs) = true := rfl

/-- A closing brace starts a number boundary. -/
theorem numBoundaryB_rbrace (cs : List Char) : numBoundaryB (rbraceCh :: cs) = true := rfl

/-- `parseVal` on input starting with a quote parses a string. -/
theorem parseVal_entry_quote (f : Nat) (z : List Char) :
    parseVal (f + 1) (quoteCh :: z)
      = (parseStrBody z).map fun p => (Json.str (String.mk p.1), p.2) := rfl

/-- `parseVal` on input starting with an opening bracket parses an array. -/
theorem parseVal_entry_arr (f : Nat) (z : List Char) :
    parseVal (f + 1) ('[' :: z)
      = (match skipWs z with
         | [] => none
         | c2 :: cs1 =>
           if c2 = ']' then some (Json.arr JsonArr.nil, cs1)
           else (itemsLoop (parseVal f) f (c2 :: cs1)).map fun p => (Json.arr p.1, p.2)) :=
  rfl

/-- `parseVal` on input starting with an opening brace parses an object. -/
theorem parseVal_entry_obj (f : Nat) (z : List Char) :
    parseVal (f + 1) (lbraceCh :: z)
      = (match skipWs z with
         | [] => none
         | c2 :: cs1 =>
           if c2 = rbraceCh then some (Json.obj JsonObj.nil, cs1)
           else (membersLoop (parseVal f) f (c2 :: cs1)).map fun p => (Json.obj p.1, p.2)) :=
  rfl

/-- `parseVal` on input starting with a minus sign or a digit parses a
number. -/
theorem parseVal_entry_num (c : Char) (h : c = '-' ∨ c.isDigit = true) (f : Nat)
    (z : List Char) :
    parseVal (f + 1) (c :: z) = (parseNum (c :: z)).map fun p => (Json.num p.1, p.2) := by
  have hws : isWsCh c = false := by
    rcases h with h | h
    · subst h; decide
    · exact digit_not_ws h
  have hne : ∀ d : Char, ('-' = d) = False → d.isDigit = false → ¬(c = d) := by
    intro d hm hd heq
    subst heq
    rcases h with h | h
    · rw [h] at hm
      simp at hm
    · rw [h] at hd
      cases hd
  have h1 : ¬(c = lbraceCh) := hne _ (by decide) (by decide)
  have h2 : ¬(c = '[') := hne _ (by decide) (by decide)
  have h3 : ¬(c = quoteCh) := hne _ (by decide) (by decide)
  have h4 : ¬(c = 'n') := hne _ (by decide) (by decide)
  have h5 : ¬(c = 't') := hne _ (by decide) (by decide)
  have h6 : ¬(c = 'f') := hne _ (by decide) (by decide)
  rw [parseVal.eq_def]
  simp only [skipWs_not_ws hws, h1, h2, h3, h4, h5, h6, if_false]

mutual
/-- Parsing the serialization of a value, followed by a number boundary,
yields the value and the continuation, given fuel at least its depth. -/
theorem parseVal_strChars (v : Json) : ∀ (f : Nat) (rest : List Char),
    Json.pfuel v ≤ f → numBoundaryB rest = true →
    parseVal f (Json.strChars v ++ rest) = some (v, rest) := by
  intro f rest hf hb
  cases f with
  | zero => exact absurd hf (by have := pfuel_pos v; omega)
  | succ f =>
    cases v with
    | null => rfl
    | bool b => cases b <;> rfl
    | num n =>
      have hpn := parseNum_intChars n rest hb
      by_cases hneg : n < 0
      · rw [show Json.strChars (Json.num n) = intChars n from rfl, intChars, if_pos hneg,
          List.cons_append, parseVal_entry_num '-' (Or.inl rfl)]
        rw [intChars, if_pos hneg, List.cons_append] at hpn
        rw [hpn]
        rfl
      · obtain ⟨hnenil, hdig, -⟩ := natChars_spec n.toNat
        rw [show Json.strChars (Json.num n) = intChars n from rfl, intChars, if_neg hneg]
        rw [intChars, if_neg hneg] at hpn
        cases hnc : natChars n.toNat with
        | nil => exact absurd hnc hnenil
        | cons c0 t =>
          have hd0 : c0.isDigit = true :=
            hdig c0 (by rw [hnc]; exact List.mem_cons_self ..)
          rw [hnc] at hpn
          rw [List.cons_append, parseVal_entry_num c0 (Or.inr hd0)]
          rw [List.cons_append] at hpn
          rw [hpn]
          rfl
    | str s =>
      rw [show Json.strChars (Json.str s) = quoteCh :: (escList s.data ++ [quoteCh])
          from rfl,
        List.cons_append, List.append_assoc, List.singleton_append,
        parseVal_entry_quote, parseStrBody_escList]
      rfl
    | arr xs =>
      cases xs with
      | nil => rfl
      | cons x tl =>
        have hfa : JsonArr.pfuelItems (JsonArr.cons x tl) ≤ f := by
          have h1 : Json.pfuel (Json.arr (JsonArr.cons x tl))
              = JsonArr.pfuelItems (JsonArr.cons x tl) + 1 := rfl
          omega
        obtain ⟨c0, t0, he, hws0, hnb0⟩ := strChars_head x
        have hitems : ∃ T, JsonArr.itemsChars (JsonArr.cons x tl) = c0 :: T := by
          cases tl with
          | nil =>
            exact ⟨t0, by
              rw [show JsonArr.itemsChars (JsonArr.cons x JsonArr.nil) = Json.strChars x
                  from rfl, he]⟩
          | cons y tl2 =>
            exact ⟨t0 ++ ',' :: JsonArr.itemsChars (JsonArr.cons y tl2), by
              rw [show JsonArr.itemsChars (JsonArr.cons x (JsonArr.cons y tl2))
                  = Json.strChars x ++ ',' :: JsonArr.itemsChars (JsonArr.cons y tl2)
                  from rfl, he, List.cons_append]⟩
        obtain ⟨T, hT⟩ := hitems
        have hloop := itemsLoop_strChars x tl f f rest (by omega) hfa
        rw [hT, List.cons_append] at hloop
        rw [show Json.strChars (Json.arr (JsonArr.cons x tl))
            = '[' :: (JsonArr.itemsChars (JsonArr.cons x tl) ++ [']']) from rfl,
          List.cons_append, List.append_assoc, List.singleton_append, parseVal_entry_arr,
          hT, List.cons_append, skipWs_not_ws hws0]
        simp [hnb0, hloop]
    | obj kvs =>
      cases kvs with
      | nil => rfl
      | cons k v tl =>
        have hfo : JsonObj.pfuelMembers (JsonObj.cons k v tl) ≤ f := by
          have h1 : Json.pfuel (Json.obj (JsonObj.cons k v tl))
              = JsonObj.pfuelMembers (JsonObj.cons k v tl) + 1 := rfl
          omega
        have hmem : ∃ T, JsonObj.membersChars (JsonObj.cons k v tl) = quoteCh :: T := by
          cases tl with
          | nil =>
            exact ⟨escList k.data ++ quoteCh :: ':' :: Json.strChars v, rfl⟩
          | cons k2 v2 tl2 =>
            exact ⟨(escList k.data ++ quoteCh :: ':' :: Json.strChars v)
              ++ ',' :: JsonObj.membersChars (JsonObj.cons k2 v2 tl2), rfl⟩
        obtain ⟨T, hT⟩ := hmem
        have hloop := membersLoop_strChars k v tl f f rest (by omega) hfo
        rw [hT, List.cons_append] at hloop
        rw [show Json.strChars (Json.obj (JsonObj.cons k v tl))
            = lbraceCh :: (JsonObj.membersChars (JsonObj.cons k v tl) ++ [rbraceCh])
            from rfl,
          List.cons_append, List.append_assoc, List.singleton_append, parseVal_entry_obj,
          hT, List.cons_append, skipWs_not_ws (by decide)]
        simp +decide [hloop]
termination_by sizeOf v
/-- Parsing the serialized items of a nonempty array, up to the closing
bracket, yields the items. -/
theorem itemsLoop_strChars (x : Json) (tl : JsonArr) : ∀ (f g : Nat) (rest : List Char),
    JsonArr.pfuelItems (JsonArr.cons x tl) ≤ f + 1 →
    JsonArr.pfuelItems (JsonArr.cons x tl) ≤ g →
    itemsLoop (parseVal f) g (JsonArr.itemsChars (JsonArr.cons x tl) ++ ']' :: rest)
      = some (JsonArr.cons x tl, rest) := by
  intro f g rest hf hg
  have heq : JsonArr.pfuelItems (JsonArr.cons x tl)
      = Nat.max (Json.pfuel x) (JsonArr.pfuelItems tl) + 1 := rfl
  have hx : Json.pfuel x ≤ f := by
    have h2 : Json.pfuel x ≤ Nat.max (Json.pfuel x) (JsonArr.pfuelItems tl) :=
      Nat.le_max_left _ _
    omega
  cases g with
  | zero => exact absurd hg (by omega)
  | succ g =>
    cases tl with
    | nil =>
      have hpv := parseVal_strChars x f (']' :: rest) hx (numBoundaryB_rbracket rest)
      rw [show JsonArr.itemsChars (JsonArr.cons x JsonArr.nil) = Json.strChars x from rfl,
        itemsLoop.eq_def]
      simp +decide [skipWs, hpv]
    | cons y tl2 =>
      have hyt : JsonArr.pfuelItems (JsonArr.cons y tl2)
          ≤ Nat.max (Json.pfuel x) (JsonArr.pfuelItems (JsonArr.cons y tl2)) :=
        Nat.le_max_right _ _
      have heq2 : JsonArr.pfuelItems (JsonArr.cons x (JsonArr.cons y tl2))
          = Nat.max (Json.pfuel x) (JsonArr.pfuelItems (JsonArr.cons y tl2)) + 1 := rfl
      have hrec := itemsLoop_strChars y tl2 f g rest (by omega) (by omega)
      have hpv := parseVal_strChars x f
        (',' :: (JsonArr.itemsChars (JsonArr.cons y tl2) ++ ']' :: rest)) hx
        (numBoundaryB_comma _)
      rw [show JsonArr.itemsChars (JsonArr.cons x (JsonArr.cons y tl2))
          = Json.strChars x ++ ',' :: JsonArr.itemsChars (JsonArr.cons y tl2) from rfl,
        List.append_assoc, List.cons_append, itemsLoop.eq_def]
      simp +decide [skipWs, hpv, hrec]
termination_by sizeOf (JsonArr.cons x tl)
/-- Parsing the serialized members of a nonempty object, up to the closing
brace, yields the members. -/
theorem membersLoop_strChars (k : String) (v : Json) (tl : JsonObj) :
    ∀ (f g : Nat) (rest : List Char),
    JsonObj.pfuelMembers (JsonObj.cons k v tl) ≤ f + 1 →
    JsonObj.pfuelMembers (JsonObj.cons k v tl) ≤ g →
    membersLoop (parseVal f) g
        (JsonObj.membersChars (JsonObj.cons k v tl) ++ rbraceCh :: rest)
      = some (JsonObj.cons k v tl, rest) := by
  intro f g rest hf hg
  have heq : JsonObj.pfuelMembers (JsonObj.cons k v tl)
      = Nat.max (Json.pfuel v) (JsonObj.pfuelMembers tl) + 1 := rfl
  have hv : Json.pfuel v ≤ f := by
    have h2 : Json.pfuel v ≤ Nat.max (Json.pfuel v) (JsonObj.pfuelMembers tl) :=
      Nat.le_max_left _ _
    omega
  have hk : String.mk k.data = k := rfl
  cases g with
  | zero => exact absurd hg (by omega)
  | succ g =>
    cases tl with
    | nil =>
      have hpv := parseVal_strChars v f (rbraceCh :: rest) hv (numBoundaryB_rbrace rest)
      rw [show JsonObj.membersChars (JsonObj.cons k v JsonObj.nil)
          = quoteCh :: (escList k.data ++ quoteCh :: ':' :: Json.strChars v) from rfl,
        membersLoop.eq_def]
      simp +decide [skipWs, parseStrBody_escList, hpv, hk]
    | cons k2 v2 tl2 =>
      have hyt : JsonObj.pfuelMembers (JsonObj.cons k2 v2 tl2)
          ≤ Nat.max (Json.pfuel v) (JsonObj.pfuelMembers (JsonObj.cons k2 v2 tl2)) :=
        Nat.le_max_right _ _
      have heq2 : JsonObj.pfuelMembers (JsonObj.cons k v (JsonObj.cons k2 v2 tl2))
          = Nat.max (Json.pfuel v) (JsonObj.pfuelMembers (JsonObj.cons k2 v2 tl2)) + 1 :=
        rfl
      have hrec := membersLoop_strChars k2 v2 tl2 f g rest (by omega) (by omega)
      have hpv := parseVal_strChars v f
        (',' :: (JsonObj.membersChars (JsonObj.cons k2 v2 tl2) ++ rbraceCh :: rest)) hv
        (numBoundaryB_comma _)
      rw [show JsonObj.membersChars (JsonObj.cons k v (JsonObj.cons k2 v2 tl2))
          = (quoteCh :: (escList k.data ++ quoteCh :: ':' :: Json.strChars v))
            ++ ',' :: JsonObj.membersChars (JsonObj.cons k2 v2 tl2) from rfl,
        membersLoop.eq_def]
      simp +decide [skipWs, parseStrBody_escList, hpv, hrec, hk]
termination_by sizeOf (JsonObj.cons k v tl)
end

/-- The hexadecimal digit characters are not the caret. -/
theorem hexDigitCh_ne_caret {d : Nat} (h : d < 16) : ¬(caretCh = hexDigitCh d) := by
  interval_cases d <;> decide

/-- Escaping a non-caret character never produces a caret. -/
theorem caret_not_mem_escChar {c : Char} (h : ¬(c = caretCh)) : caretCh ∉ escChar c := by
  rw [escChar]
  split_ifs with h1 h2 h3 h4 h5 h6 h7 h8
  · decide
  · decide
  · decide
  · decide
  · decide
  · decide
  · decide
  · intro hm
    simp only [List.mem_cons, List.not_mem_nil, or_false] at hm
    rcases hm with hm | hm | hm | hm | hm | hm
    · exact absurd hm (by decide)
    · exact absurd hm (by decide)
    · exact absurd hm (by decide)
    · exact absurd hm (by decide)
    · exact hexDigitCh_ne_caret (by omega) hm
    · exact hexDigitCh_ne_caret (by omega) hm
  · intro hm
    simp only [List.mem_cons, List.not_mem_nil, or_false] at hm
    exact h (hm ▸ rfl)

/-- Escaping a caret-free string never produces a caret. -/
theorem caret_not_mem_escList {s : List Char} (h : caretCh ∉ s) :
    caretCh ∉ escList s := by
  induction s with
  | nil => exact List.not_mem_nil _
  | cons c cs ih =>
    rw [escList]
    rw [List.mem_cons] at h
    push_neg at h
    intro hm
    rcases List.mem_append.mp hm with hm | hm
    · exact caret_not_mem_escChar (fun he => h.1 (he ▸ rfl)) hm
    · exact ih h.2 hm

/-- The decimal rendering of an integer never contains a caret. -/
theorem caret_not_mem_intChars (n : Int) : caretCh ∉ intChars n := by
  have hnat : ∀ m : Nat, caretCh ∉ natChars m := by
    intro m hm
    obtain ⟨-, hdig, -⟩ := natChars_spec m
    exact absurd (hdig caretCh hm) (by decide)
  rw [intChars]
  split_ifs
  · intro hm
    rcases List.mem_cons.mp hm with hm | hm
    · exact absurd hm (by decide)
    · exact hnat _ hm
  · exact hnat _

mutual
/-- The serialization of a caret-free value contains no caret. -/
theorem caret_not_strChars (v : Json) : Json.noCaretB v = true →
    caretCh ∉ Json.strChars v := by
  intro h
  cases v with
  | null => decide
  | bool b => cases b <;> decide
  | num n => exact caret_not_mem_intChars n
  | str s =>
    rw [show Json.noCaretB (Json.str s) = !(decide (caretCh ∈ s.data)) from rfl,
      Bool.not_eq_true', decide_eq_false_iff_not] at h
    rw [show Json.strChars (Json.str s) = quoteCh :: (escList s.data ++ [quoteCh])
        from rfl]
    intro hm
    rcases List.mem_cons.mp hm with hm | hm
    · exact absurd hm (by decide)
    · rcases List.mem_append.mp hm with hm | hm
      · exact caret_not_mem_escList h hm
      · exact absurd hm (by decide)
  | arr xs =>
    rw [show Json.noCaretB (Json.arr xs) = JsonArr.noCaretItems xs from rfl] at h
    rw [show Json.strChars (Json.arr xs) = '[' :: (JsonArr.itemsChars xs ++ [']'])
        from rfl]
    intro hm
    rcases List.mem_cons.mp hm with hm | hm
    · exact absurd hm (by decide)
    · rcases List.mem_append.mp hm with hm | hm
      · exact caret_not_itemsChars xs h hm
      · exact absurd hm (by decide)
  | obj kvs =>
    rw [show Json.noCaretB (Json.obj kvs) = JsonObj.noCaretMembers kvs from rfl] at h
    rw [show Json.strChars (Json.obj kvs)
        = lbraceCh :: (JsonObj.membersChars kvs ++ [rbraceCh]) from rfl]
    intro hm
    rcases List.mem_cons.mp hm with hm | hm
    · exact absurd hm (by decide)
    · rcases List.mem_append.mp hm with hm | hm
      · exact caret_not_membersChars kvs h hm
      · exact absurd hm (by decide)
/-- The serialized items of a caret-free array contain no caret. -/
theorem caret_not_itemsChars (xs : JsonArr) : JsonArr.noCaretItems xs = true →
    caretCh ∉ JsonArr.itemsChars xs := by
  intro h
  cases xs with
  | nil => exact List.not_mem_nil _
  | cons x tl =>
    rw [show JsonArr.noCaretItems (JsonArr.cons x tl)
        = (Json.noCaretB x && JsonArr.noCaretItems tl) from rfl,
      Bool.and_eq_true] at h
    cases tl with
    | nil =>
      rw [show JsonArr.itemsChars (JsonArr.cons x JsonArr.nil) = Json.strChars x from rfl]
      exact caret_not_strChars x h.1
    | cons y tl2 =>
      rw [show JsonArr.itemsChars (JsonArr.cons x (JsonArr.cons y tl2))
          = Json.strChars x ++ ',' :: JsonArr.itemsChars (JsonArr.cons y tl2) from rfl]
      intro hm
      rcases List.mem_append.mp hm with hm | hm
      · exact caret_not_strChars x h.1 hm
      · rcases List.mem_cons.mp hm with hm | hm
        · exact absurd hm (by decide)
        · exact caret_not_itemsChars (JsonArr.cons y tl2) h.2 hm
/-- The serialized members of a caret-free object contain no caret. -/
theorem caret_not_membersChars (kvs : JsonObj) : JsonObj.noCaretMembers kvs = true →
    caretCh ∉ JsonObj.membersChars kvs := by
  intro h
  cases kvs with
  | nil => exact List.not_mem_nil _
  | cons k v tl =>
    rw [show JsonObj.noCaretMembers (JsonObj.cons k v tl)
        = (!(decide (caretCh ∈ k.data)) && Json.noCaretB v && JsonObj.noCaretMembers tl)
        from rfl, Bool.and_eq_true, Bool.and_eq_true, Bool.not_eq_true',
      decide_eq_false_iff_not] at h
    have hpiece : caretCh ∉ quoteCh :: (escList k.data ++ quoteCh :: ':' :: Json.strChars v) := by
      intro hm
      rcases List.mem_cons.mp hm with hm | hm
      · exact absurd hm (by decide)
      · rcases List.mem_append.mp hm with hm | hm
        · exact caret_not_mem_escList h.1.1 hm
        · rcases List.mem_cons.mp hm with hm | hm
          · exact absurd hm (by decide)
          · rcases List.mem_cons.mp hm with hm | hm
            · exact absurd hm (by decide)
            · exact caret_not_strChars v h.1.2 hm
    cases tl with
    | nil => exact hpiece
    | cons k2 v2 tl2 =>
      rw [show JsonObj.membersChars (JsonObj.cons k v (JsonObj.cons k2 v2 tl2))
          = (quoteCh :: (escList k.data ++ quoteCh :: ':' :: Json.strChars v))
            ++ ',' :: JsonObj.membersChars (JsonObj.cons k2 v2 tl2) from rfl]
      intro hm
      rcases List.mem_append.mp hm with hm | hm
      · exact hpiece hm
      · rcases List.mem_cons.mp hm with hm | hm
        · exact absurd hm (by decide)
        · exact caret_not_membersChars (JsonObj.cons k2 v2 tl2) h.2 hm
end

/-- Decoding after encoding is the identity on caret-free text: every quote
became a caret and comes back, and no original character was a caret. -/
theorem decode_encode_of_no_caret : ∀ cs : List Char, caretCh ∉ cs →
    decodeCarets (encodeQuotes cs) = cs := by
  intro cs h
  induction cs with
  | nil => rfl
  | cons c cs ih =>
    rw [List.mem_cons] at h
    push_neg at h
    rw [encodeQuotes, List.map_cons, decodeCarets, List.map_cons]
    have htl : decodeCarets (encodeQuotes cs) = cs := ih h.2
    rw [decodeCarets, encodeQuotes] at htl
    rw [htl]
    by_cases hq : c = quoteCh
    · simp [hq]
    · rw [if_neg hq, if_neg (fun he => h.1 he.symm)]

/-- Parsing the plain serialization of any value recovers the value. -/
theorem jsonParse_strChars (v : Json) : jsonParse (Json.strChars v) = some v := by
  have hlen := pfuel_le_length v
  have h := parseVal_strChars v ((Json.strChars v).length + 1) [] (by omega) rfl
  rw [List.append_nil] at h
  rw [jsonParse, h]
  rfl

/-! ### The C1 theorems -/

/-- C1 (amended): for every site-metadata value none of whose strings
contains a caret character, deserializing — the consuming framework's caret
decoding followed by `JSON.parse` — the serialized form
(`JSON.stringify` + quote-to-caret replacement) yields a value equal to the
original, including when its strings contain quote or control characters. -/
theorem serialize_roundtrip_no_caret (v : Json) (h : Json.noCaretB v = true) :
    deserialize (serializeChars v) = some v := by
  rw [deserialize, serializeChars,
    decode_encode_of_no_caret _ (caret_not_strChars v h), jsonParse_strChars]

/-- Witness: a metadata object whose title holds a quote and a newline
round-trips. -/
theorem serialize_roundtrip_witness :
    Json.noCaretB metaSample = true
      ∧ deserialize (serializeChars metaSample) = some metaSample :=
  ⟨rfl, serialize_roundtrip_no_caret metaSample rfl⟩

/-- C1 counterexample: the same metadata object with a caret in its title
does not survive the round trip — the decode step turns the caret into a
quote, corrupting the JSON text, and `JSON.parse` fails. -/
theorem serialize_caret_counterexample :
    deserialize (serializeChars metaSampleCaret) ≠ some metaSampleCaret := by
  have h : deserialize (serializeChars metaSampleCaret) = none := rfl
  rw [h]
  exact fun hc => Option.noConfusion hc

end DumiCore
